import Mathlib

/-!
Verification of the buddy-system allocator (src/buddy.rs, src/arena.rs).

The Rust code stores tree nodes in a generational arena (`Arena<Block>`,
indices as node identities).  Every node is reachable from the root
(nodes are created only by splitting and removed only by merging, both
keeping the tree connected), so the arena-plus-root is embedded here as
the tree it represents — exactly the shape of the source's own debug
projection `prettify` in src/lib.rs.  An arena `Index` is embedded as
the path from the root to the node (`List Dir`); paths identify live
nodes exactly as stably as generational indices do, because the
operations never move a node and only remove nodes of fully-Available
subtrees.  Machine integers (`usize`, `u32`) are embedded as `Nat` with
explicit `% 2 ^ 32` where the 32-bit overflow of `2_u32.pow` matters
(release-mode wrapping semantics).  `usize::ilog2`, which panics on
zero, is embedded as a total function guarded at the call site by the
`Option` result of the caller.  The mpsc pending-free channel is a FIFO
`List` of node paths; `Instant::now() >= deadline` observations of
`tidy_timed` are an oracle `List Bool` consumed one entry per clock
check.
-/

/-- Direction taken at a `Split` node: `L` is the first (low) child,
`R` the second (high) child. -/
inductive Dir where
  | L : Dir
  | R : Dir
deriving DecidableEq, Repr

/-- The block tree: each node carries its half-open range `[start, stop)`
and its state (`Available`, `Occupied`, or `Split` with the two
children), mirroring `Block { range, state: BlockState }` of
src/buddy.rs with the arena indices of `Split(Index, Index)` replaced by
the child subtrees they reference. -/
inductive BTree where
  | Available : Nat → Nat → BTree
  | Occupied : Nat → Nat → BTree
  | Split : Nat → Nat → BTree → BTree → BTree
deriving DecidableEq, Repr

namespace BTree

/-- `range.start` of the node. -/
def start : BTree → Nat
  | .Available s _ => s
  | .Occupied s _ => s
  | .Split s _ _ _ => s

/-- `range.end` of the node. -/
def stop : BTree → Nat
  | .Available _ e => e
  | .Occupied _ e => e
  | .Split _ e _ _ => e

/-- `range.len()` of the node. -/
def len (t : BTree) : Nat := t.stop - t.start

/-- Number of nodes of the tree (used only as a termination measure). -/
def nodes : BTree → Nat
  | .Available _ _ => 1
  | .Occupied _ _ => 1
  | .Split _ _ f g => 1 + f.nodes + g.nodes

end BTree

namespace buddy

/-- `buddy::alloc` (src/buddy.rs:27-74).  Returns the identity (path)
of the node marked Occupied, or `none` on failure, together with the
tree after the call (the arena is mutated in place in Rust; failures
may still have split nodes).  The three-way `match block.range.len().cmp(&desired_size)`
is written as the equivalent `<` / `=` / `>` chain.  An `Occupied` node
fails in all three orderings without mutation, so its arms are merged. -/
def alloc (t : BTree) (desired_size : Nat) : Option (List Dir) × BTree :=
  match t with
  | .Occupied s e => (none, .Occupied s e)
  | .Available s e =>
    if e - s < desired_size then (none, .Available s e)
    else if e - s = desired_size then (some [], .Occupied s e)
    else
      -- split into two Available halves, recurse into the first
      let mid := s + (e - s) / 2
      let r := alloc (.Available s mid) desired_size
      (r.1.map (Dir.L :: ·), .Split s e r.2 (.Available mid e))
  | .Split s e f g =>
    if e - s < desired_size then (none, .Split s e f g)
    else if e - s = desired_size then (none, .Split s e f g)
    else
      let rf := alloc f desired_size
      match rf.1 with
      | some p => (some (Dir.L :: p), .Split s e rf.2 g)
      | none =>
        let rg := alloc g desired_size
        (rg.1.map (Dir.R :: ·), .Split s e rf.2 rg.2)
termination_by (t.nodes, t.len)
decreasing_by
  all_goals
    simp [Prod.lex_def, BTree.nodes, BTree.len, BTree.start, BTree.stop]
  all_goals omega

/-- `buddy::dealloc` (src/buddy.rs:76-78): sets the state of the node
identified by the path to `Available`, keeping its range.  A path that
does not resolve to a live node leaves the tree unchanged (in Rust such
a stale generational index would not be handed out by the Manager). -/
def dealloc (t : BTree) (p : List Dir) : BTree :=
  match t, p with
  | .Available s e, [] => .Available s e
  | .Occupied s e, [] => .Available s e
  | .Split s e _ _, [] => .Available s e
  | .Split s e f g, .L :: p => .Split s e (dealloc f p) g
  | .Split s e f g, .R :: p => .Split s e f (dealloc g p)
  | t, _ :: _ => t

/-- `buddy::tidy` (src/buddy.rs:83-106): bottom-up coalescing.  The
returned `Bool` is the `IsAvailable` result; merging removes both
children from the arena, which in tree form replaces the `Split` node
by an `Available` leaf. -/
def tidy : BTree → Bool × BTree
  | .Available s e => (true, .Available s e)
  | .Occupied s e => (false, .Occupied s e)
  | .Split s e f g =>
    let rf := tidy f
    let rg := tidy g
    if rf.1 && rg.1 then (true, .Available s e)
    else (false, .Split s e rf.2 rg.2)

/-- `buddy::tidy_gas` (src/buddy.rs:108-137): the shared `&mut usize`
gas counter is threaded explicitly; the result is
`(IsAvailable, tree, remaining gas)`.  Gas is checked first and
decremented once per visited node. -/
def tidy_gas (t : BTree) (gas : Nat) : Bool × BTree × Nat :=
  if gas = 0 then (false, t, 0)
  else
    match t with
    | .Available s e => (true, .Available s e, gas - 1)
    | .Occupied s e => (false, .Occupied s e, gas - 1)
    | .Split s e f g =>
      let rf := tidy_gas f (gas - 1)
      let rg := tidy_gas g rf.2.2
      if rf.1 && rg.1 then (true, .Available s e, rg.2.2)
      else (false, .Split s e rf.2.1 rg.2.1, rg.2.2)

/-- `buddy::tidy_timed` (src/buddy.rs:139-167): each `Instant::now() >= deadline`
check consumes one observation from the oracle list (`headD false`: if
the oracle is exhausted the deadline has not passed).  The result is
`(IsAvailable, tree, remaining oracle)`. -/
def tidy_timed (t : BTree) (oracle : List Bool) : Bool × BTree × List Bool :=
  if oracle.headD false then (false, t, oracle.tail)
  else
    match t with
    | .Available s e => (true, .Available s e, oracle.tail)
    | .Occupied s e => (false, .Occupied s e, oracle.tail)
    | .Split s e f g =>
      let rf := tidy_timed f oracle.tail
      let rg := tidy_timed g rf.2.2
      if rf.1 && rg.1 then (true, .Available s e, rg.2.2)
      else (false, .Split s e rf.2.1 rg.2.1, rg.2.2)

end buddy

/-- `u32` arithmetic: `2_u32.pow e` with release-mode wrapping overflow
semantics (the result is reduced modulo `2 ^ 32`), as in
src/arena.rs:66-69. -/
def pow2u32 (e : Nat) : Nat := 2 ^ e % 2 ^ 32

/-- Fueled base-2 integer logarithm.  `usize::ilog2` on a 64-bit
machine: 64 halvings always suffice for `n < 2 ^ 64`.  (The zero case,
where `usize::ilog2` panics, is guarded by the caller
`BuddyBookkeeping.alloc`.) -/
def ilog2go : Nat → Nat → Nat
  | 0, _ => 0
  | fuel + 1, n => if n < 2 then 0 else ilog2go fuel (n / 2) + 1

/-- `usize::ilog2` (total version; callers guard the zero case). -/
def ilog2 (n : Nat) : Nat := ilog2go 64 n

/-- The unclamped size rounding of `BuddyBookkeeping::alloc`
(src/arena.rs:66-70): `count` if `2_u32.pow(count.ilog2()) == count`,
else `2_u32.pow(count.ilog2() + 1)`, in wrapping 32-bit arithmetic. -/
def round_pow2_u32 (count : Nat) : Nat :=
  if pow2u32 (ilog2 count) = count then count else pow2u32 (ilog2 count + 1)

/-- The clamped `best_size` of `BuddyBookkeeping::alloc`
(src/arena.rs:66-72): the rounded size `.max(min_block_size).min(max_block_size)`. -/
def best_size (min_block_size max_block_size count : Nat) : Nat :=
  min (max (round_pow2_u32 count) min_block_size) max_block_size

/-- The `Allocation` handle (src/arena.rs:12-16): the node identity
(`index`, here the node's path), and the caller-visible range
`[start, start + count)`.  The channel sender held by the Rust handle
is represented by the enqueue operation `dropAllocation`. -/
structure Allocation where
  index : List Dir
  start : Nat
  count : Nat
deriving DecidableEq, Repr

/-- `arena[x].range.start`: resolve the start of the node at a path.
Paths produced by `buddy.alloc` always resolve. -/
def startAt : BTree → List Dir → Nat
  | t, [] => t.start
  | .Split _ _ f _, .L :: p => startAt f p
  | .Split _ _ _ g, .R :: p => startAt g p
  | t, _ :: _ => t.start

/-- `BuddyBookkeeping` (src/arena.rs:32-39): the arena-plus-root is the
block tree; the mpsc pending-free channel is the FIFO `queue` of node
paths (sender side: `dropAllocation` appends; receiver side: the tidy
variants pop from the front in receive order). -/
structure BuddyBookkeeping where
  tree : BTree
  queue : List (List Dir)
  min_block_size : Nat
  max_block_size : Nat
deriving DecidableEq, Repr

namespace BuddyBookkeeping

/-- Preconditions asserted by `BuddyBookkeeping::new` (src/arena.rs:43-45):
`is_pow_of_two(size)`, `max_block_size <= size`,
`min_block_size <= max_block_size` (violations abort). -/
def newPre (size min_block_size max_block_size : Nat) : Prop :=
  (∃ k, size = 2 ^ k) ∧ max_block_size ≤ size ∧ min_block_size ≤ max_block_size

/-- `BuddyBookkeeping::new` (src/arena.rs:42-63): a single `Available`
root covering `[0, size)` and an empty pending-free channel. -/
def new (size min_block_size max_block_size : Nat) : BuddyBookkeeping :=
  { tree := .Available 0 size
    queue := []
    min_block_size := min_block_size
    max_block_size := max_block_size }

/-- `BuddyBookkeeping::alloc` (src/arena.rs:65-83).  The outer `Option`
is the panic guard: `none` iff `count = 0`, where `count.ilog2()`
aborts.  Otherwise `some (result, new state)` where `result` is the
`Option<Allocation>` of the source: `none` when `best_size < count` or
when the tree alloc fails (the tree mutation of a failed
`buddy::alloc` persists, as in the source where the arena is mutated in
place). -/
def alloc (m : BuddyBookkeeping) (count : Nat) :
    Option (Option Allocation × BuddyBookkeeping) :=
  if count = 0 then none
  else
    let best := best_size m.min_block_size m.max_block_size count
    if best < count then some (none, m)
    else
      let r := buddy.alloc m.tree best
      match r.1 with
      | none => some (none, { m with tree := r.2 })
      | some p => some (some ⟨p, startAt r.2 p, count⟩, { m with tree := r.2 })

/-- `Drop for Allocation` (src/arena.rs:24-30): destroying a handle
sends its node identity to the pending-free channel. -/
def dropAllocation (m : BuddyBookkeeping) (a : Allocation) : BuddyBookkeeping :=
  { m with queue := m.queue ++ [a.index] }

/-- The unbudgeted drain loop of `BuddyBookkeeping::tidy`
(src/arena.rs:86-88): `while let Ok(index) = try_recv() { dealloc(index) }`. -/
def drainAll : BTree → List (List Dir) → BTree
  | t, [] => t
  | t, p :: rest => drainAll (buddy.dealloc t p) rest

/-- `BuddyBookkeeping::tidy` (src/arena.rs:85-91): drain the whole
queue, deallocating every entry, then run the unbudgeted tree tidy on
the root. -/
def tidy (m : BuddyBookkeeping) : BuddyBookkeeping :=
  { m with tree := (buddy.tidy (drainAll m.tree m.queue)).2, queue := [] }

/-- The drain loop of `BuddyBookkeeping::tidy_gas` (src/arena.rs:96-104).
Mirrors the source exactly: `try_recv` pops the entry first, and only
then is `gas == 0` checked, so on exhaustion the popped entry is
dropped without being deallocated.  The final `Bool` records whether
the loop returned early (in which case `buddy::tidy_gas` is never
reached). -/
def tidyGasDrain : BTree → List (List Dir) → Nat → BTree × List (List Dir) × Nat × Bool
  | t, [], gas => (t, [], gas, false)
  | t, p :: rest, gas =>
    if gas = 0 then (t, rest, 0, true)
    else tidyGasDrain (buddy.dealloc t p) rest (gas - 1)

/-- `BuddyBookkeeping::tidy_gas` (src/arena.rs:93-107): drain while gas
remains (gas decremented once per deallocated entry), returning early
on exhaustion; otherwise run the gas-limited tree tidy with the
remaining gas. -/
def tidy_gas (m : BuddyBookkeeping) (gas : Nat) : BuddyBookkeeping :=
  let d := tidyGasDrain m.tree m.queue gas
  if d.2.2.2 then { m with tree := d.1, queue := d.2.1 }
  else { m with tree := (buddy.tidy_gas d.1 d.2.2.1).2.1, queue := d.2.1 }

/-- The drain loop of `BuddyBookkeeping::tidy_timed` (src/arena.rs:110-116).
As in the source, `try_recv` pops the entry before the deadline check,
so on expiry the popped entry is dropped without being deallocated.
Each deadline check consumes one oracle observation. -/
def tidyTimedDrain : BTree → List (List Dir) → List Bool →
    BTree × List (List Dir) × List Bool × Bool
  | t, [], oracle => (t, [], oracle, false)
  | t, p :: rest, oracle =>
    if oracle.headD false then (t, rest, oracle.tail, true)
    else tidyTimedDrain (buddy.dealloc t p) rest oracle.tail

/-- `BuddyBookkeeping::tidy_timed` (src/arena.rs:109-119): drain while
the deadline has not passed, returning early on expiry; otherwise run
the deadline-limited tree tidy with the remaining oracle. -/
def tidy_timed (m : BuddyBookkeeping) (oracle : List Bool) : BuddyBookkeeping :=
  let d := tidyTimedDrain m.tree m.queue oracle
  if d.2.2.2 then { m with tree := d.1, queue := d.2.1 }
  else { m with tree := (buddy.tidy_timed d.1 d.2.2.1).2.1, queue := d.2.1 }

end BuddyBookkeeping

/-- `n` is a power of two (the property the source's `is_pow_of_two`
check and the spec's structural invariant speak about). -/
def IsPow2 (n : Nat) : Prop := ∃ k, n = 2 ^ k

/-- Every node of the tree has a power-of-two range length. -/
def lensPow2 : BTree → Prop
  | .Available s e => IsPow2 (e - s)
  | .Occupied s e => IsPow2 (e - s)
  | .Split s e f g => IsPow2 (e - s) ∧ lensPow2 f ∧ lensPow2 g

/-- Structural well-formedness (the spec's structural invariant): every
node's range length is a power of two, and each `Split` node's children
exactly partition its range into the two contiguous halves. -/
def wf : BTree → Prop
  | .Available s e => IsPow2 (e - s)
  | .Occupied s e => IsPow2 (e - s)
  | .Split s e f g =>
      IsPow2 (e - s) ∧
      f.start = s ∧ f.stop = s + (e - s) / 2 ∧
      g.start = s + (e - s) / 2 ∧ g.stop = e ∧
      wf f ∧ wf g

/-- The ranges of the currently `Occupied` leaves, left to right. -/
def occupiedRanges : BTree → List (Nat × Nat)
  | .Available _ _ => []
  | .Occupied s e => [(s, e)]
  | .Split _ _ f g => occupiedRanges f ++ occupiedRanges g

/-- Well-formedness of a whole `BuddyBookkeeping` state: a well-formed
tree rooted at offset 0 (the root range is `[0, universeSize)`). -/
def mwf (m : BuddyBookkeeping) : Prop := wf m.tree ∧ m.tree.start = 0

/-- Test driver: run `BuddyBookkeeping.alloc` and unwrap, with a dummy
handle on failure (the scenario theorems assert success separately). -/
def allocStep (m : BuddyBookkeeping) (count : Nat) : Allocation × BuddyBookkeeping :=
  match m.alloc count with
  | some (some a, m') => (a, m')
  | some (none, m') => (⟨[], 0, 0⟩, m')
  | none => (⟨[], 0, 0⟩, m)

/-- Full-reclamation scenario (spec §8): universe 2048, min 8, max 256. -/
def c8m0 : BuddyBookkeeping := BuddyBookkeeping.new 2048 8 256

/-- Scenario step: allocate 64. -/
def c8s1 : Allocation × BuddyBookkeeping := allocStep c8m0 64

/-- Scenario step: allocate 24. -/
def c8s2 : Allocation × BuddyBookkeeping := allocStep c8s1.2 24

/-- Scenario step: allocate 2. -/
def c8s3 : Allocation × BuddyBookkeeping := allocStep c8s2.2 2

/-- Scenario step: allocate 7. -/
def c8s4 : Allocation × BuddyBookkeeping := allocStep c8s3.2 7

/-- Scenario step: allocate 31. -/
def c8s5 : Allocation × BuddyBookkeeping := allocStep c8s4.2 31

/-- Scenario step: allocate 60. -/
def c8s6 : Allocation × BuddyBookkeeping := allocStep c8s5.2 60

/-- Scenario: all six handles dropped (their node identities enqueued
on the pending-free channel). -/
def c8mDropped : BuddyBookkeeping :=
  (((((c8s6.2.dropAllocation c8s1.1).dropAllocation c8s2.1).dropAllocation
      c8s3.1).dropAllocation c8s4.1).dropAllocation c8s5.1).dropAllocation c8s6.1

/-- A manager holding one pending-free entry for the occupied left leaf
of a single split (the state after one alloc of the left half followed
by dropping its handle). -/
def c1m : BuddyBookkeeping :=
  { tree := .Split 0 2 (.Occupied 0 1) (.Available 1 2)
    queue := [[Dir.L]]
    min_block_size := 1
    max_block_size := 2 }

/-! ## Helper lemmas -/

/-- `buddy.tidy` is idempotent on trees: tidying an already tidied tree
changes nothing and reports the same availability. -/
theorem tidy_tidy (t : BTree) : buddy.tidy (buddy.tidy t).2 = buddy.tidy t := by
  induction t with
  | Available s e => rfl
  | Occupied s e => rfl
  | Split s e f g ihf ihg =>
    by_cases h : (buddy.tidy f).1 && (buddy.tidy g).1
    · have hs : buddy.tidy (.Split s e f g) = (true, .Available s e) := by
        simp only [buddy.tidy]
        rw [if_pos h]
      rw [hs]
      rfl
    · have hs : buddy.tidy (.Split s e f g) =
          (false, .Split s e (buddy.tidy f).2 (buddy.tidy g).2) := by
        simp only [buddy.tidy]
        rw [if_neg h]
      rw [hs]
      simp only [buddy.tidy, ihf, ihg]
      rw [if_neg h]

/-! ## Claims -/

/-- C1: the budgeted tidy variants are claimed to check the budget
before draining each queue entry and to leave every not-yet-deallocated
entry still queued; in particular `tidy_gas(0)` is claimed to leave the
queue exactly as before.  The code pops the entry with `try_recv`
BEFORE checking the budget (src/arena.rs:96-99), so `tidy_gas(0)` on a
manager with one pending entry removes that entry from the queue
without deallocating it: the tree is unchanged (the node stays
Occupied) but the queue head is lost.  This theorem evaluates the code
at that failing input. -/
theorem tidy_gas_zero_discards_pending_entry :
    c1m.tidy_gas 0 = { c1m with queue := [] } ∧ c1m.queue = [[Dir.L]] := by
  constructor
  · rfl
  · rfl

/-- C9: `alloc(0)` does not return the "no allocation" sentinel: the
size rounding calls `count.ilog2()` which panics on zero
(src/arena.rs:66), so the graceful no-result path (`some` in the
model's outer `Option`) is only guaranteed for positive `count`. -/
theorem alloc_zero_panics :
    (∀ m : BuddyBookkeeping, m.alloc 0 = none) ∧
    ∀ (m : BuddyBookkeeping) (count : Nat), 0 < count → (m.alloc count).isSome = true := by
  constructor
  · intro m
    rfl
  · intro m count hc
    unfold BuddyBookkeeping.alloc
    rw [if_neg (by omega)]
    dsimp only
    split
    · rfl
    · split <;> rfl

/-- C9 witness: at the concrete manager `c1m`, `alloc 0` panics while
`alloc 3` reaches a graceful result. -/
theorem alloc_zero_panics_witness :
    c1m.alloc 0 = none ∧ (c1m.alloc 3).isSome = true :=
  ⟨alloc_zero_panics.1 c1m, alloc_zero_panics.2 c1m 3 (by decide)⟩

/-- C6: calling `tidy()` twice in a row with no intervening alloc or
handle destruction changes nothing on the second call: after one
unbudgeted tidy the queue is empty, and the second tidy returns the
manager (tree states, ranges and node set included) unchanged. -/
theorem tidy_idempotent_manager (m : BuddyBookkeeping) :
    (m.tidy).queue = [] ∧ m.tidy.tidy = m.tidy := by
  refine ⟨rfl, ?_⟩
  show BuddyBookkeeping.tidy
      { m with tree := (buddy.tidy (BuddyBookkeeping.drainAll m.tree m.queue)).2, queue := [] } =
    { m with tree := (buddy.tidy (BuddyBookkeeping.drainAll m.tree m.queue)).2, queue := [] }
  unfold BuddyBookkeeping.tidy
  simp only [BuddyBookkeeping.drainAll, tidy_tidy]

/-- C4: case analysis of the block-tree `alloc` for a power-of-two
`desiredSize`: a too-small node fails; an exact-size node succeeds
(becoming Occupied, returning its identity) iff it is `Available`; a
larger `Occupied` node fails; a larger `Available` node is split into
two new `Available` children that are contiguous equal halves (left
half first) with the recursion entering the left child; a larger
`Split` node tries the left child first and the right child only if
the left fails.  (The equal-halves clause uses the data-model invariant
that the node's own length is a power of two.) -/
theorem alloc_case_analysis :
    (∀ s e d, IsPow2 d → e - s < d →
      buddy.alloc (.Available s e) d = (none, .Available s e)) ∧
    (∀ s e d, IsPow2 d → e - s < d →
      buddy.alloc (.Occupied s e) d = (none, .Occupied s e)) ∧
    (∀ s e f g d, IsPow2 d → e - s < d →
      buddy.alloc (.Split s e f g) d = (none, .Split s e f g)) ∧
    (∀ s e d, IsPow2 d → e - s = d →
      buddy.alloc (.Available s e) d = (some [], .Occupied s e)) ∧
    (∀ s e d, IsPow2 d → e - s = d →
      buddy.alloc (.Occupied s e) d = (none, .Occupied s e)) ∧
    (∀ s e f g d, IsPow2 d → e - s = d →
      buddy.alloc (.Split s e f g) d = (none, .Split s e f g)) ∧
    (∀ s e d, IsPow2 d → d < e - s →
      buddy.alloc (.Occupied s e) d = (none, .Occupied s e)) ∧
    (∀ s e d, IsPow2 d → IsPow2 (e - s) → d < e - s →
      buddy.alloc (.Available s e) d =
        ((buddy.alloc (.Available s (s + (e - s) / 2)) d).1.map (Dir.L :: ·),
         .Split s e (buddy.alloc (.Available s (s + (e - s) / 2)) d).2
           (.Available (s + (e - s) / 2) e))
      ∧ (s + (e - s) / 2) - s = (e - s) / 2 ∧ e - (s + (e - s) / 2) = (e - s) / 2) ∧
    (∀ s e f g d p, IsPow2 d → d < e - s → (buddy.alloc f d).1 = some p →
      buddy.alloc (.Split s e f g) d = (some (Dir.L :: p), .Split s e (buddy.alloc f d).2 g)) ∧
    (∀ s e f g d, IsPow2 d → d < e - s → (buddy.alloc f d).1 = none →
      buddy.alloc (.Split s e f g) d =
        ((buddy.alloc g d).1.map (Dir.R :: ·),
         .Split s e (buddy.alloc f d).2 (buddy.alloc g d).2)) := by
  refine ⟨?_, ?_, ?_, ?_, ?_, ?_, ?_, ?_, ?_, ?_⟩
  · intro s e d _ h
    rw [buddy.alloc]
    rw [if_pos h]
  · intro s e d _ _
    rw [buddy.alloc]
  · intro s e f g d _ h
    rw [buddy.alloc]
    rw [if_pos h]
  · intro s e d _ h
    rw [buddy.alloc]
    rw [if_neg (by omega), if_pos h]
  · intro s e d _ _
    rw [buddy.alloc]
  · intro s e f g d _ h
    rw [buddy.alloc]
    rw [if_neg (by omega), if_pos h]
  · intro s e d _ _
    rw [buddy.alloc]
  · intro s e d hd hse h
    obtain ⟨j, hj⟩ := hd
    obtain ⟨k, hk⟩ := hse
    have hd1 : 1 ≤ d := by
      have : 0 < 2 ^ j := Nat.two_pow_pos j
      omega
    have hk1 : k ≠ 0 := by
      rintro rfl
      simp at hk
      omega
    have he : e - s = 2 * 2 ^ (k - 1) := by
      rw [hk]
      have : 2 ^ k = 2 * 2 ^ (k - 1) := by
        conv_lhs => rw [show k = 1 + (k - 1) by omega]
        rw [pow_add, pow_one]
      omega
    have hpos : 0 < 2 ^ (k - 1) := Nat.two_pow_pos _
    refine ⟨?_, by omega, by omega⟩
    rw [buddy.alloc]
    rw [if_neg (by omega), if_neg (by omega)]
  · intro s e f g d p _ h hf
    rw [buddy.alloc]
    rw [if_neg (by omega), if_neg (by omega)]
    simp only [hf]
  · intro s e f g d _ h hf
    rw [buddy.alloc]
    rw [if_neg (by omega), if_neg (by omega)]
    simp only [hf]

/-- C4 witness: the case analysis applied at concrete inputs — an
exact-size Available leaf is claimed and a larger Occupied node
rejects. -/
theorem alloc_case_analysis_witness :
    buddy.alloc (.Available 0 2) 2 = (some [], .Occupied 0 2) ∧
    buddy.alloc (.Occupied 0 4) 2 = (none, .Occupied 0 4) :=
  ⟨alloc_case_analysis.2.2.2.1 0 2 2 ⟨1, rfl⟩ (by decide),
   alloc_case_analysis.2.2.2.2.2.2.1 0 4 2 ⟨1, rfl⟩ (by decide)⟩

/-- C5: `tidy` merges a `Split` node (removing both children, setting
the node `Available`, reporting true) iff both children recursively
report available; when one child is `Occupied`, the split stays intact
and the freed `Available` sibling does not merge, and a subsequent
`alloc` of exactly the sibling's size succeeds by occupying that leaf
in place, creating no new splits. -/
theorem tidy_merge_iff_children_available :
    (∀ s e f g, buddy.tidy (.Split s e f g) =
      if (buddy.tidy f).1 && (buddy.tidy g).1 then (true, .Available s e)
      else (false, .Split s e (buddy.tidy f).2 (buddy.tidy g).2)) ∧
    (∀ s k, 0 < k →
      buddy.tidy (.Split s (s + 2 * k) (.Available s (s + k)) (.Occupied (s + k) (s + 2 * k))) =
        (false, .Split s (s + 2 * k) (.Available s (s + k)) (.Occupied (s + k) (s + 2 * k))) ∧
      buddy.alloc (.Split s (s + 2 * k) (.Available s (s + k)) (.Occupied (s + k) (s + 2 * k))) k =
        (some [Dir.L],
         .Split s (s + 2 * k) (.Occupied s (s + k)) (.Occupied (s + k) (s + 2 * k)))) ∧
    (∀ s k, 0 < k →
      buddy.tidy (.Split s (s + 2 * k) (.Occupied s (s + k)) (.Available (s + k) (s + 2 * k))) =
        (false, .Split s (s + 2 * k) (.Occupied s (s + k)) (.Available (s + k) (s + 2 * k))) ∧
      buddy.alloc (.Split s (s + 2 * k) (.Occupied s (s + k)) (.Available (s + k) (s + 2 * k))) k =
        (some [Dir.R],
         .Split s (s + 2 * k) (.Occupied s (s + k)) (.Occupied (s + k) (s + 2 * k)))) := by
  refine ⟨fun s e f g => rfl, ?_, ?_⟩
  · intro s k hk
    refine ⟨rfl, ?_⟩
    have h1 : buddy.alloc (.Available s (s + k)) k = (some [], .Occupied s (s + k)) := by
      rw [buddy.alloc]
      rw [if_neg (by omega), if_pos (by omega)]
    rw [buddy.alloc]
    rw [if_neg (by omega), if_neg (by omega)]
    simp only [h1]
  · intro s k hk
    refine ⟨rfl, ?_⟩
    have h1 : buddy.alloc (.Occupied s (s + k)) k = (none, .Occupied s (s + k)) := by
      rw [buddy.alloc]
    have h2 : buddy.alloc (.Available (s + k) (s + 2 * k)) k =
        (some [], .Occupied (s + k) (s + 2 * k)) := by
      rw [buddy.alloc]
      rw [if_neg (by omega), if_pos (by omega)]
    rw [buddy.alloc]
    rw [if_neg (by omega), if_neg (by omega)]
    simp only [h1, h2]
    rfl

/-- C5 witness: the merge rule and the sibling-blocked scenario at the
concrete split `[0, 2) = [0, 1) ⊕ [1, 2)`. -/
theorem tidy_merge_iff_children_available_witness :
    buddy.tidy (.Split 0 (0 + 2 * 1) (.Available 0 (0 + 1)) (.Occupied (0 + 1) (0 + 2 * 1))) =
      (false, .Split 0 (0 + 2 * 1) (.Available 0 (0 + 1)) (.Occupied (0 + 1) (0 + 2 * 1))) ∧
    buddy.alloc (.Split 0 (0 + 2 * 1) (.Available 0 (0 + 1)) (.Occupied (0 + 1) (0 + 2 * 1))) 1 =
      (some [Dir.L],
       .Split 0 (0 + 2 * 1) (.Occupied 0 (0 + 1)) (.Occupied (0 + 1) (0 + 2 * 1))) :=
  tidy_merge_iff_children_available.2.1 0 1 (by decide)

/-- C8: full reclamation — with universe 2048, min 8, max 256, the six
allocations of sizes 64, 24, 2, 7, 31, 60 all succeed; after dropping
all six handles and calling `tidy()`, the tree is a single `Available`
root covering `[0, 2048)` (merging past `maxBlockSize` included), and a
subsequent request for 256 — the largest size the manager can serve
under `maxBlockSize` — succeeds. -/
theorem full_reclamation_scenario :
    c8m0.alloc 64 = some (some c8s1.1, c8s1.2) ∧
    c8s1.2.alloc 24 = some (some c8s2.1, c8s2.2) ∧
    c8s2.2.alloc 2 = some (some c8s3.1, c8s3.2) ∧
    c8s3.2.alloc 7 = some (some c8s4.1, c8s4.2) ∧
    c8s4.2.alloc 31 = some (some c8s5.1, c8s5.2) ∧
    c8s5.2.alloc 60 = some (some c8s6.1, c8s6.2) ∧
    c8mDropped.tidy.tree = .Available 0 2048 ∧
    (c8mDropped.tidy.alloc 256).map (fun r => r.1.isSome) = some true := by
  simp [c8m0, c8s1, c8s2, c8s3, c8s4, c8s5, c8s6, c8mDropped, allocStep,
    BuddyBookkeeping.alloc, BuddyBookkeeping.new, BuddyBookkeeping.tidy,
    BuddyBookkeeping.dropAllocation, BuddyBookkeeping.drainAll,
    best_size, round_pow2_u32, pow2u32, ilog2, ilog2go,
    buddy.alloc, buddy.tidy, buddy.dealloc, startAt, BTree.start]

/-- Modelled from the spec: `s` is the smallest power of two greater
than or equal to `n` (spec §4.1 size rounding policy).  Used only to
compare the code's rounding against the spec's words. -/
def IsSmallestPow2Ge (n s : Nat) : Prop :=
  (∃ k, s = 2 ^ k) ∧ n ≤ s ∧ ∀ t, (∃ j, t = 2 ^ j) → n ≤ t → s ≤ t

/-- Correctness of the fueled logarithm: for `0 < n < 2 ^ fuel` it
brackets `n` between consecutive powers of two. -/
theorem ilog2go_correct (fuel : Nat) :
    ∀ n, 0 < n → n < 2 ^ fuel →
      2 ^ ilog2go fuel n ≤ n ∧ n < 2 ^ (ilog2go fuel n + 1) := by
  induction fuel with
  | zero =>
    intro n h1 h2
    simp at h2
    omega
  | succ f ih =>
    intro n h1 h2
    rw [ilog2go]
    by_cases hn : n < 2
    · rw [if_pos hn]
      simpa using by omega
    · rw [if_neg hn]
      have hpos : 0 < n / 2 := by omega
      have hlt : n / 2 < 2 ^ f := by
        rw [pow_succ] at h2
        omega
      obtain ⟨hl, hr⟩ := ih (n / 2) hpos hlt
      constructor
      · rw [pow_succ]
        omega
      · rw [pow_succ]
        omega

/-- `ilog2` brackets every positive 64-bit value between consecutive
powers of two. -/
theorem ilog2_correct (n : Nat) (h1 : 0 < n) (h2 : n < 2 ^ 64) :
    2 ^ ilog2 n ≤ n ∧ n < 2 ^ (ilog2 n + 1) :=
  ilog2go_correct 64 n h1 h2

/-- `2_u32.pow e` does not wrap below `2 ^ 32`. -/
theorem pow2u32_small (e : Nat) (h : e < 32) : pow2u32 e = 2 ^ e :=
  Nat.mod_eq_of_lt (Nat.pow_lt_pow_right (by norm_num) h)

/-- `2_u32.pow e` wraps to zero from exponent 32 on. -/
theorem pow2u32_big (e : Nat) (h : 32 ≤ e) : pow2u32 e = 0 :=
  Nat.dvd_iff_mod_eq_zero.mp (pow_dvd_pow 2 h)

/-- `2 ^ (k + 1)` is the smallest power of two ≥ any `n` in
`(2 ^ k, 2 ^ (k + 1)]`. -/
theorem isSmallestPow2Ge_succ_pow (k n : Nat) (h1 : 2 ^ k < n) (h2 : n ≤ 2 ^ (k + 1)) :
    IsSmallestPow2Ge n (2 ^ (k + 1)) := by
  refine ⟨⟨k + 1, rfl⟩, h2, ?_⟩
  rintro t ⟨j, rfl⟩ hnt
  have hkj : k < j := (Nat.pow_lt_pow_iff_right (by norm_num)).mp (lt_of_lt_of_le h1 hnt)
  exact Nat.pow_le_pow_right (by norm_num) hkj

/-- For `0 < count ≤ 2 ^ 31` the code's rounding is exactly the
smallest power of two ≥ `count` (no 32-bit wrap happens). -/
theorem round_correct_small (count : Nat) (h1 : 0 < count) (h2 : count ≤ 2 ^ 31) :
    IsSmallestPow2Ge count (round_pow2_u32 count) := by
  have hlt : count < 2 ^ 64 := by
    have : (2 : Nat) ^ 31 < 2 ^ 64 := by norm_num
    omega
  obtain ⟨hl, hr⟩ := ilog2_correct count h1 hlt
  have hi31 : ilog2 count ≤ 31 := by
    by_contra hgt
    push_neg at hgt
    have h32 : (2 : Nat) ^ 32 ≤ 2 ^ ilog2 count := Nat.pow_le_pow_right (by norm_num) hgt
    have : (2 : Nat) ^ 31 < 2 ^ 32 := by norm_num
    omega
  unfold round_pow2_u32
  by_cases hc : pow2u32 (ilog2 count) = count
  · rw [if_pos hc]
    rw [pow2u32_small (ilog2 count) (by omega)] at hc
    exact ⟨⟨ilog2 count, hc.symm⟩, le_refl count, fun t _ ht => ht⟩
  · rw [if_neg hc]
    rw [pow2u32_small (ilog2 count) (by omega)] at hc
    have hi30 : ilog2 count ≤ 30 := by
      by_contra hgt
      push_neg at hgt
      have h31 : ilog2 count = 31 := by omega
      rw [h31] at hl
      exact hc (by rw [h31]; omega)
    rw [pow2u32_small (ilog2 count + 1) (by omega)]
    exact isSmallestPow2Ge_succ_pow (ilog2 count) count
      (lt_of_le_of_ne hl fun h => hc h) (le_of_lt hr)

/-- For every count above `2 ^ 31` (within the 64-bit range) the
32-bit exponentiation wraps and the code's rounding collapses to 0. -/
theorem round_eq_zero_of_big (count : Nat) (h1 : 2 ^ 31 < count) (h2 : count < 2 ^ 64) :
    round_pow2_u32 count = 0 := by
  have h0 : 0 < count := by
    have : (0 : Nat) < 2 ^ 31 := by norm_num
    omega
  obtain ⟨hl, hr⟩ := ilog2_correct count h0 h2
  have hi31 : 31 ≤ ilog2 count := by
    by_contra h
    push_neg at h
    have : (2 : Nat) ^ (ilog2 count + 1) ≤ 2 ^ 31 := Nat.pow_le_pow_right (by norm_num) (by omega)
    omega
  unfold round_pow2_u32
  by_cases hc : pow2u32 (ilog2 count) = count
  · exfalso
    rcases Nat.lt_or_ge (ilog2 count) 32 with h32 | h32
    · rw [pow2u32_small (ilog2 count) h32] at hc
      have h31 : ilog2 count = 31 := by omega
      rw [h31] at hc
      omega
    · rw [pow2u32_big (ilog2 count) h32] at hc
      omega
  · rw [if_neg hc]
    exact pow2u32_big (ilog2 count + 1) (by omega)

/-- C10: the size rounding computes its power of two in 32-bit
arithmetic (`2_u32.pow`) although `count` is a machine word: for every
64-bit `count` whose smallest enclosing power of two is at least
`2 ^ 32` the computed (unclamped) size is not that smallest power — the
exponentiation wraps to 0 — while for every count up to `2 ^ 31` the
rounding is correct, so correct rounding holds only below `2 ^ 32`. -/
theorem rounding_32bit_overflow :
    (∀ count s, count < 2 ^ 64 → IsSmallestPow2Ge count s → 2 ^ 32 ≤ s →
      round_pow2_u32 count ≠ s) ∧
    (∀ count, 0 < count → count ≤ 2 ^ 31 →
      IsSmallestPow2Ge count (round_pow2_u32 count)) := by
  constructor
  · intro count s hc hs h32
    have hbig : 2 ^ 31 < count := by
      by_contra hle
      push_neg at hle
      have hle31 := hs.2.2 (2 ^ 31) ⟨31, rfl⟩ hle
      have : (2 : Nat) ^ 31 < 2 ^ 32 := by norm_num
      omega
    rw [round_eq_zero_of_big count hbig hc]
    have : (0 : Nat) < 2 ^ 32 := by norm_num
    omega
  · exact round_correct_small

/-- C10 witness: at `count = 2 ^ 31 + 1` (smallest enclosing power
`2 ^ 32`) the rounding is wrong, and at `count = 7` it is the smallest
power of two ≥ 7. -/
theorem rounding_32bit_overflow_witness :
    round_pow2_u32 (2 ^ 31 + 1) ≠ 2 ^ 32 ∧
    IsSmallestPow2Ge 7 (round_pow2_u32 7) :=
  ⟨rounding_32bit_overflow.1 (2 ^ 31 + 1) (2 ^ 32) (by norm_num)
      (isSmallestPow2Ge_succ_pow 31 (2 ^ 31 + 1) (by norm_num) (by norm_num)) (le_refl _),
   rounding_32bit_overflow.2 7 (by norm_num) (by norm_num)⟩

/-- C3 counterexample: the claim (rounding = smallest power of two
≥ count, clamped) fails at `count = 2 ^ 31 + 1` with
`minBlockSize = 8`, `maxBlockSize = 256`: the smallest power of two
≥ count is `2 ^ 32`, whose clamp into `[8, 256]` is 256, but the code
computes `best_size = 8` (the 32-bit exponentiation wraps to 0 and the
clamp then returns `min_block_size`). -/
theorem best_size_policy_cex :
    IsSmallestPow2Ge (2 ^ 31 + 1) (2 ^ 32) ∧
    min (max (2 ^ 32) 8) 256 = 256 ∧
    best_size 8 256 (2 ^ 31 + 1) = 8 := by
  refine ⟨isSmallestPow2Ge_succ_pow 31 (2 ^ 31 + 1) (by norm_num) (by norm_num),
    by norm_num, ?_⟩
  unfold best_size
  rw [round_eq_zero_of_big (2 ^ 31 + 1) (by norm_num) (by norm_num)]
  decide

/-- C3 (amended to counts whose rounding fits the 32-bit
exponentiation): for every positive `count ≤ 2 ^ 31`, `alloc` computes
the block size as the smallest power of two ≥ `count` clamped into
`[minBlockSize, maxBlockSize]`; if the clamped size is below `count`
the call returns the no-allocation sentinel with the manager untouched
(no tree access), and otherwise the clamped size is exactly the size
handed to the block-tree `alloc`. -/
theorem best_size_policy_small (m : BuddyBookkeeping) (count : Nat)
    (h1 : 0 < count) (h2 : count ≤ 2 ^ 31) :
    IsSmallestPow2Ge count (round_pow2_u32 count) ∧
    best_size m.min_block_size m.max_block_size count =
      min (max (round_pow2_u32 count) m.min_block_size) m.max_block_size ∧
    (best_size m.min_block_size m.max_block_size count < count →
      m.alloc count = some (none, m)) ∧
    (count ≤ best_size m.min_block_size m.max_block_size count →
      (m.alloc count).map (fun r => r.2.tree) =
        some (buddy.alloc m.tree (best_size m.min_block_size m.max_block_size count)).2) := by
  refine ⟨round_correct_small count h1 h2, rfl, ?_, ?_⟩
  · intro hlt
    unfold BuddyBookkeeping.alloc
    rw [if_neg (by omega)]
    dsimp only
    rw [if_pos hlt]
  · intro hge
    unfold BuddyBookkeeping.alloc
    rw [if_neg (by omega)]
    dsimp only
    rw [if_neg (by omega)]
    split <;> rfl

/-- C3 witness: the amended policy applied at `count = 2`, on the
concrete manager `c1m` (min 1, max 2). -/
theorem best_size_policy_small_witness :
    IsSmallestPow2Ge 2 (round_pow2_u32 2) :=
  (best_size_policy_small c1m 2 (by decide) (by norm_num)).1

/-- On an `Available` node whose length is a power of two at least the
(power-of-two) desired size, `buddy.alloc` always succeeds: the split
chain halves the node until the exact size is reached. -/
theorem alloc_avail_some :
    ∀ (L s e d : Nat), e - s ≤ L → IsPow2 (e - s) → IsPow2 d → d ≤ e - s →
      (buddy.alloc (.Available s e) d).1.isSome = true := by
  intro L
  induction L with
  | zero =>
    intro s e d hL hse hd hle
    obtain ⟨k, hk⟩ := hse
    have := Nat.two_pow_pos k
    omega
  | succ n ih =>
    intro s e d hL hse hd hle
    rw [buddy.alloc]
    rw [if_neg (by omega)]
    by_cases h2 : e - s = d
    · rw [if_pos h2]
      rfl
    · rw [if_neg h2]
      obtain ⟨k, hk⟩ := hse
      obtain ⟨j, hj⟩ := hd
      have hjk : j < k := by
        refine (Nat.pow_lt_pow_iff_right Nat.one_lt_two).mp ?_
        rw [← hj, ← hk]
        omega
      have hhalf : (e - s) / 2 = 2 ^ (k - 1) := by
        rw [hk]
        conv_lhs => rw [show k = (k - 1) + 1 by omega]
        rw [pow_succ]
        omega
      have hpos : 0 < 2 ^ (k - 1) := Nat.two_pow_pos _
      have hmid : (s + (e - s) / 2) - s = (e - s) / 2 := by omega
      have hdle : d ≤ 2 ^ (k - 1) := by
        rw [hj]
        exact Nat.pow_le_pow_right (by norm_num) (by omega)
      have hrec := ih s (s + (e - s) / 2) d (by omega)
        (by rw [hmid, hhalf]; exact ⟨k - 1, rfl⟩) ⟨j, hj⟩ (by omega)
      simpa using hrec

/-- When `buddy.alloc` fails with a power-of-two desired size on a tree
all of whose node lengths are powers of two, the tree is unchanged:
the only mutating failure path (splitting an Available node and then
failing inside it) cannot happen, because on such a node the
allocation always succeeds. -/
theorem alloc_none_unchanged (d : Nat) (hd : IsPow2 d) :
    ∀ t, lensPow2 t → (buddy.alloc t d).1 = none → (buddy.alloc t d).2 = t := by
  intro t
  induction t with
  | Available s e =>
    intro hw hn
    by_cases h1 : e - s < d
    · rw [buddy.alloc]
      rw [if_pos h1]
    · exfalso
      have hsome := alloc_avail_some (e - s) s e d (le_refl _) hw hd (by omega)
      rw [hn] at hsome
      cases hsome
  | Occupied s e =>
    intro hw hn
    rw [buddy.alloc]
  | Split s e f g ihf ihg =>
    intro hw hn
    rw [buddy.alloc] at hn ⊢
    by_cases h1 : e - s < d
    · rw [if_pos h1]
    · rw [if_neg h1] at hn ⊢
      by_cases h2 : e - s = d
      · rw [if_pos h2] at hn ⊢
      · rw [if_neg h2] at hn ⊢
        cases hf : (buddy.alloc f d).1 with
        | some p =>
          simp [hf] at hn
        | none =>
          simp only [hf] at hn ⊢
          have hg : (buddy.alloc g d).1 = none := by
            simpa using hn
          rw [ihf hw.2.1 hf, ihg hw.2.2 hg]

/-- For positive count the rounded (unclamped) size is zero or a power
of two. -/
theorem round_zero_or_pow2 (count : Nat) (h : 0 < count) :
    round_pow2_u32 count = 0 ∨ IsPow2 (round_pow2_u32 count) := by
  unfold round_pow2_u32
  by_cases hc : pow2u32 (ilog2 count) = count
  · rw [if_pos hc]
    rcases Nat.lt_or_ge (ilog2 count) 32 with h32 | h32
    · rw [pow2u32_small (ilog2 count) h32] at hc
      exact Or.inr ⟨ilog2 count, hc.symm⟩
    · rw [pow2u32_big (ilog2 count) h32] at hc
      omega
  · rw [if_neg hc]
    rcases Nat.lt_or_ge (ilog2 count + 1) 32 with h32 | h32
    · rw [pow2u32_small (ilog2 count + 1) h32]
      exact Or.inr ⟨ilog2 count + 1, rfl⟩
    · rw [pow2u32_big (ilog2 count + 1) h32]
      exact Or.inl rfl

/-- When both clamp bounds are powers of two, the clamped `best_size`
is a power of two. -/
theorem best_size_pow2 (mn mx count : Nat) (h : 0 < count)
    (hmn : IsPow2 mn) (hmx : IsPow2 mx) :
    IsPow2 (best_size mn mx count) := by
  unfold best_size
  have hmax : max (round_pow2_u32 count) mn = round_pow2_u32 count ∨
      max (round_pow2_u32 count) mn = mn := by
    rcases Nat.le_total (round_pow2_u32 count) mn with hle | hle
    · exact Or.inr (max_eq_right hle)
    · exact Or.inl (max_eq_left hle)
  have hr := round_zero_or_pow2 count h
  have hpow : IsPow2 (max (round_pow2_u32 count) mn) := by
    rcases hr with hz | hp
    · rw [hz]
      simpa using hmn
    · rcases hmax with he | he <;> rw [he] <;> assumption
  rcases Nat.le_total (max (round_pow2_u32 count) mn) mx with hle | hle
  · rw [min_eq_left hle]
    exact hpow
  · rw [min_eq_right hle]
    exact hmx

/-- A manager constructed as `new(8, 3, 8)` — legal under the
constructor's asserts (8 is a power of two, 3 ≤ 8 ≤ 8), but with a
non-power-of-two `min_block_size`. -/
def c2m : BuddyBookkeeping := BuddyBookkeeping.new 8 3 8

/-- The state `c2m` reaches after the failing call `alloc(2)`: the
root has been split twice even though no allocation was returned. -/
def c2mAfter : BuddyBookkeeping :=
  { tree := .Split 0 8 (.Split 0 4 (.Available 0 2) (.Available 2 4)) (.Available 4 8)
    queue := []
    min_block_size := 3
    max_block_size := 8 }

/-- C2 counterexample: the claim (every no-allocation return leaves the
tree exactly as before) fails on a constructor-legal manager.  With
`new(8, 3, 8)`, `alloc(2)` rounds 2 up and clamps it to the
non-power-of-two `best_size = 3`; the tree alloc then splits the root
down to a 2-long leaf that is smaller than 3 and fails, returning the
no-allocation sentinel with the tree visibly split. -/
theorem alloc_failure_mutates_tree_cex :
    BuddyBookkeeping.newPre 8 3 8 ∧
    c2m.alloc 2 = some (none, c2mAfter) ∧
    c2mAfter.tree ≠ c2m.tree := by
  refine ⟨⟨⟨3, rfl⟩, by norm_num, by norm_num⟩, ?_, by decide⟩
  simp [c2m, c2mAfter, BuddyBookkeeping.alloc, BuddyBookkeeping.new, best_size,
    round_pow2_u32, pow2u32, ilog2, ilog2go, buddy.alloc]

/-- C2 (amended with the hypotheses that `minBlockSize` and
`maxBlockSize` are powers of two and every node length in the tree is
a power of two — as holds for every state reachable from a constructor
call with power-of-two min/max): for every positive count, `alloc`
reaches a graceful result (no panic), and whenever it returns the
no-allocation sentinel the manager — tree included — is exactly as it
was before the call. -/
theorem alloc_failure_no_trace (m : BuddyBookkeeping) (count : Nat)
    (h1 : 0 < count) (hmn : IsPow2 m.min_block_size) (hmx : IsPow2 m.max_block_size)
    (ht : lensPow2 m.tree) :
    (m.alloc count).isSome = true ∧
    ∀ m', m.alloc count = some (none, m') → m' = m := by
  constructor
  · unfold BuddyBookkeeping.alloc
    rw [if_neg (by omega)]
    dsimp only
    split
    · rfl
    · split <;> rfl
  · intro m' heq
    unfold BuddyBookkeeping.alloc at heq
    rw [if_neg (by omega)] at heq
    dsimp only at heq
    by_cases hb : best_size m.min_block_size m.max_block_size count < count
    · rw [if_pos hb] at heq
      simp only [Option.some.injEq, Prod.mk.injEq] at heq
      exact heq.2.symm
    · rw [if_neg hb] at heq
      cases hres : (buddy.alloc m.tree (best_size m.min_block_size m.max_block_size count)).1 with
      | some p =>
        simp [hres] at heq
      | none =>
        simp only [hres, Option.some.injEq, Prod.mk.injEq] at heq
        have htr := alloc_none_unchanged
          (best_size m.min_block_size m.max_block_size count)
          (best_size_pow2 m.min_block_size m.max_block_size count h1 hmn hmx)
          m.tree ht hres
        rw [← heq.2, htr]

/-- C2 witness: on the power-of-two manager `c1m` (min 1, max 2, all
node lengths powers of two), `alloc(5)` reaches a graceful sentinel
and leaves the manager unchanged. -/
theorem alloc_failure_no_trace_witness :
    (c1m.alloc 5).isSome = true ∧ c1m = c1m :=
  ⟨(alloc_failure_no_trace c1m 5 (by decide) ⟨0, rfl⟩ ⟨1, rfl⟩
      ⟨⟨1, rfl⟩, ⟨0, rfl⟩, ⟨0, rfl⟩⟩).1,
   (alloc_failure_no_trace c1m 5 (by decide) ⟨0, rfl⟩ ⟨1, rfl⟩
      ⟨⟨1, rfl⟩, ⟨0, rfl⟩, ⟨0, rfl⟩⟩).2 c1m
     (by simp [c1m, BuddyBookkeeping.alloc, best_size, round_pow2_u32, pow2u32,
       ilog2, ilog2go, buddy.alloc])⟩

/-- `buddy.alloc` never changes the range of the node it is called on. -/
theorem alloc_preserves_range (t : BTree) (d : Nat) :
    (buddy.alloc t d).2.start = t.start ∧ (buddy.alloc t d).2.stop = t.stop := by
  cases t with
  | Available s e =>
    rw [buddy.alloc]
    by_cases h1 : e - s < d
    · rw [if_pos h1]
      exact ⟨rfl, rfl⟩
    · rw [if_neg h1]
      by_cases h2 : e - s = d
      · rw [if_pos h2]
        exact ⟨rfl, rfl⟩
      · rw [if_neg h2]
        exact ⟨rfl, rfl⟩
  | Occupied s e =>
    rw [buddy.alloc]
    exact ⟨rfl, rfl⟩
  | Split s e f g =>
    rw [buddy.alloc]
    by_cases h1 : e - s < d
    · rw [if_pos h1]
      exact ⟨rfl, rfl⟩
    · rw [if_neg h1]
      by_cases h2 : e - s = d
      · rw [if_pos h2]
        exact ⟨rfl, rfl⟩
      · rw [if_neg h2]
        cases hf : (buddy.alloc f d).1 <;> simp only [hf] <;> exact ⟨rfl, rfl⟩

/-- `buddy.dealloc` never changes the range of the node it is called
on. -/
theorem dealloc_preserves_range (p : List Dir) :
    ∀ t, (buddy.dealloc t p).start = t.start ∧ (buddy.dealloc t p).stop = t.stop := by
  cases p with
  | nil => intro t; cases t <;> exact ⟨rfl, rfl⟩
  | cons dir rest => intro t; cases t <;> cases dir <;> exact ⟨rfl, rfl⟩

/-- `buddy.tidy` never changes the range of the node it is called on. -/
theorem tidy_preserves_range (t : BTree) :
    (buddy.tidy t).2.start = t.start ∧ (buddy.tidy t).2.stop = t.stop := by
  cases t with
  | Available s e => exact ⟨rfl, rfl⟩
  | Occupied s e => exact ⟨rfl, rfl⟩
  | Split s e f g =>
    rw [buddy.tidy]
    by_cases h : (buddy.tidy f).1 && (buddy.tidy g).1
    · rw [if_pos h]
      exact ⟨rfl, rfl⟩
    · rw [if_neg h]
      exact ⟨rfl, rfl⟩

/-- `buddy.tidy_gas` never changes the range of the node it is called
on. -/
theorem tidy_gas_preserves_range (t : BTree) (gas : Nat) :
    (buddy.tidy_gas t gas).2.1.start = t.start ∧ (buddy.tidy_gas t gas).2.1.stop = t.stop := by
  rw [buddy.tidy_gas.eq_def]
  by_cases h0 : gas = 0
  · rw [if_pos h0]
    exact ⟨rfl, rfl⟩
  · rw [if_neg h0]
    cases t with
    | Available s e => exact ⟨rfl, rfl⟩
    | Occupied s e => exact ⟨rfl, rfl⟩
    | Split s e f g =>
      dsimp only
      split
      · exact ⟨rfl, rfl⟩
      · exact ⟨rfl, rfl⟩

/-- `buddy.tidy_timed` never changes the range of the node it is
called on. -/
theorem tidy_timed_preserves_range (t : BTree) (oracle : List Bool) :
    (buddy.tidy_timed t oracle).2.1.start = t.start ∧
    (buddy.tidy_timed t oracle).2.1.stop = t.stop := by
  rw [buddy.tidy_timed.eq_def]
  by_cases h0 : oracle.headD false
  · rw [if_pos h0]
    exact ⟨rfl, rfl⟩
  · rw [if_neg h0]
    cases t with
    | Available s e => exact ⟨rfl, rfl⟩
    | Occupied s e => exact ⟨rfl, rfl⟩
    | Split s e f g =>
      dsimp only
      split
      · exact ⟨rfl, rfl⟩
      · exact ⟨rfl, rfl⟩

/-- `buddy.alloc` with a positive desired size preserves structural
well-formedness. -/
theorem alloc_wf : ∀ (t : BTree) (d : Nat), 0 < d → wf t → wf (buddy.alloc t d).2 := by
  intro t d
  induction t, d using buddy.alloc.induct with
  | case1 d s e =>
    intro hd hw
    rw [buddy.alloc]
    exact hw
  | case2 d s e h1 =>
    intro hd hw
    rw [buddy.alloc]
    rw [if_pos h1]
    exact hw
  | case3 s e h1 =>
    intro hd hw
    rw [buddy.alloc]
    rw [if_neg h1, if_pos rfl]
    exact hw
  | case4 d s e h1 h2 mid ih =>
    intro hd hw
    rw [buddy.alloc]
    rw [if_neg h1, if_neg h2]
    obtain ⟨k, hk⟩ := hw
    have hk1 : 1 ≤ k := by
      rcases Nat.eq_zero_or_pos k with h | h
      · subst h
        simp at hk
        omega
      · exact h
    have hhalf : (e - s) / 2 = 2 ^ (k - 1) := by
      rw [hk]
      conv_lhs => rw [show k = (k - 1) + 1 by omega]
      rw [pow_succ]
      omega
    have hpos : 0 < 2 ^ (k - 1) := Nat.two_pow_pos _
    have hwl : wf (.Available s (s + (e - s) / 2)) := by
      show IsPow2 ((s + (e - s) / 2) - s)
      rw [show (s + (e - s) / 2) - s = (e - s) / 2 by omega, hhalf]
      exact ⟨k - 1, rfl⟩
    have hrange := alloc_preserves_range (.Available s (s + (e - s) / 2)) d
    refine ⟨⟨k, hk⟩, ?_, ?_, rfl, rfl, ih hd hwl, ?_⟩
    · rw [hrange.1]
      rfl
    · rw [hrange.2]
      rfl
    · show IsPow2 (e - (s + (e - s) / 2))
      have hk2 : e - s = 2 * 2 ^ (k - 1) := by
        rw [hk]
        conv_lhs => rw [show k = (k - 1) + 1 by omega]
        rw [pow_succ]
        omega
      have heq : e - (s + (e - s) / 2) = (e - s) / 2 := by omega
      rw [heq, hhalf]
      exact ⟨k - 1, rfl⟩
  | case5 d s e f g h1 =>
    intro hd hw
    rw [buddy.alloc]
    rw [if_pos h1]
    exact hw
  | case6 s e f g h1 =>
    intro hd hw
    rw [buddy.alloc]
    rw [if_neg h1, if_pos rfl]
    exact hw
  | case7 d s e f g h1 h2 rf p hp ih =>
    intro hd hw
    rw [buddy.alloc]
    rw [if_neg h1, if_neg h2]
    dsimp only
    rw [show (buddy.alloc f d).1 = some p from hp]
    obtain ⟨hpow, hf1, hf2, hg1, hg2, hwf, hwg⟩ := hw
    have hrange := alloc_preserves_range f d
    exact ⟨hpow, by rw [hrange.1]; exact hf1, by rw [hrange.2]; exact hf2,
      hg1, hg2, ih hd hwf, hwg⟩
  | case8 d s e f g h1 h2 rf hp ihf ihg =>
    intro hd hw
    rw [buddy.alloc]
    rw [if_neg h1, if_neg h2]
    dsimp only
    rw [show (buddy.alloc f d).1 = none from hp]
    obtain ⟨hpow, hf1, hf2, hg1, hg2, hwf, hwg⟩ := hw
    have hrangef := alloc_preserves_range f d
    have hrangeg := alloc_preserves_range g d
    exact ⟨hpow, by rw [hrangef.1]; exact hf1, by rw [hrangef.2]; exact hf2,
      by rw [hrangeg.1]; exact hg1, by rw [hrangeg.2]; exact hg2,
      ihf hd hwf, ihg hd hwg⟩

/-- `buddy.dealloc` preserves structural well-formedness: it only
replaces a node's state by `Available`, keeping its range. -/
theorem dealloc_wf : ∀ (p : List Dir) (t : BTree), wf t → wf (buddy.dealloc t p) := by
  intro p
  induction p with
  | nil =>
    intro t hw
    cases t with
    | Available s e => exact hw
    | Occupied s e => exact hw
    | Split s e f g => exact hw.1
  | cons dir rest ih =>
    intro t hw
    cases t with
    | Available s e => exact hw
    | Occupied s e => exact hw
    | Split s e f g =>
      obtain ⟨hpow, hf1, hf2, hg1, hg2, hwf, hwg⟩ := hw
      cases dir with
      | L =>
        have hr := dealloc_preserves_range rest f
        exact ⟨hpow, by rw [hr.1]; exact hf1, by rw [hr.2]; exact hf2,
          hg1, hg2, ih f hwf, hwg⟩
      | R =>
        have hr := dealloc_preserves_range rest g
        exact ⟨hpow, hf1, hf2, by rw [hr.1]; exact hg1, by rw [hr.2]; exact hg2,
          hwf, ih g hwg⟩

/-- `buddy.tidy` preserves structural well-formedness. -/
theorem tidy_wf : ∀ t : BTree, wf t → wf (buddy.tidy t).2 := by
  intro t
  induction t with
  | Available s e => intro hw; exact hw
  | Occupied s e => intro hw; exact hw
  | Split s e f g ihf ihg =>
    intro hw
    obtain ⟨hpow, hf1, hf2, hg1, hg2, hwf, hwg⟩ := hw
    rw [buddy.tidy]
    by_cases h : (buddy.tidy f).1 && (buddy.tidy g).1
    · rw [if_pos h]
      exact hpow
    · rw [if_neg h]
      have hrf := tidy_preserves_range f
      have hrg := tidy_preserves_range g
      exact ⟨hpow, by rw [hrf.1]; exact hf1, by rw [hrf.2]; exact hf2,
        by rw [hrg.1]; exact hg1, by rw [hrg.2]; exact hg2,
        ihf hwf, ihg hwg⟩

/-- `buddy.tidy_gas` preserves structural well-formedness for every
gas budget. -/
theorem tidy_gas_wf : ∀ (t : BTree) (gas : Nat), wf t → wf (buddy.tidy_gas t gas).2.1 := by
  intro t
  induction t with
  | Available s e =>
    intro gas hw
    rw [buddy.tidy_gas.eq_def]
    by_cases h0 : gas = 0
    · rw [if_pos h0]
      exact hw
    · rw [if_neg h0]
      exact hw
  | Occupied s e =>
    intro gas hw
    rw [buddy.tidy_gas.eq_def]
    by_cases h0 : gas = 0
    · rw [if_pos h0]
      exact hw
    · rw [if_neg h0]
      exact hw
  | Split s e f g ihf ihg =>
    intro gas hw
    rw [buddy.tidy_gas.eq_def]
    by_cases h0 : gas = 0
    · rw [if_pos h0]
      exact hw
    · rw [if_neg h0]
      obtain ⟨hpow, hf1, hf2, hg1, hg2, hwf, hwg⟩ := hw
      dsimp only
      split
      · exact hpow
      · have hrf := tidy_gas_preserves_range f (gas - 1)
        have hrg := tidy_gas_preserves_range g (buddy.tidy_gas f (gas - 1)).2.2
        exact ⟨hpow, by rw [hrf.1]; exact hf1, by rw [hrf.2]; exact hf2,
          by rw [hrg.1]; exact hg1, by rw [hrg.2]; exact hg2,
          ihf (gas - 1) hwf, ihg (buddy.tidy_gas f (gas - 1)).2.2 hwg⟩

/-- `buddy.tidy_timed` preserves structural well-formedness for every
deadline oracle. -/
theorem tidy_timed_wf :
    ∀ (t : BTree) (oracle : List Bool), wf t → wf (buddy.tidy_timed t oracle).2.1 := by
  intro t
  induction t with
  | Available s e =>
    intro oracle hw
    rw [buddy.tidy_timed.eq_def]
    by_cases h0 : oracle.headD false
    · rw [if_pos h0]
      exact hw
    · rw [if_neg h0]
      exact hw
  | Occupied s e =>
    intro oracle hw
    rw [buddy.tidy_timed.eq_def]
    by_cases h0 : oracle.headD false
    · rw [if_pos h0]
      exact hw
    · rw [if_neg h0]
      exact hw
  | Split s e f g ihf ihg =>
    intro oracle hw
    rw [buddy.tidy_timed.eq_def]
    by_cases h0 : oracle.headD false
    · rw [if_pos h0]
      exact hw
    · rw [if_neg h0]
      obtain ⟨hpow, hf1, hf2, hg1, hg2, hwf, hwg⟩ := hw
      dsimp only
      split
      · exact hpow
      · have hrf := tidy_timed_preserves_range f oracle.tail
        have hrg := tidy_timed_preserves_range g (buddy.tidy_timed f oracle.tail).2.2
        exact ⟨hpow, by rw [hrf.1]; exact hf1, by rw [hrf.2]; exact hf2,
          by rw [hrg.1]; exact hg1, by rw [hrg.2]; exact hg2,
          ihf oracle.tail hwf, ihg (buddy.tidy_timed f oracle.tail).2.2 hwg⟩

/-- The unbudgeted queue drain preserves well-formedness and the root
range. -/
theorem drainAll_wf :
    ∀ (q : List (List Dir)) (t : BTree), wf t →
      wf (BuddyBookkeeping.drainAll t q) ∧
      (BuddyBookkeeping.drainAll t q).start = t.start ∧
      (BuddyBookkeeping.drainAll t q).stop = t.stop := by
  intro q
  induction q with
  | nil => intro t hw; exact ⟨hw, rfl, rfl⟩
  | cons p rest ih =>
    intro t hw
    rw [BuddyBookkeeping.drainAll]
    have hr := dealloc_preserves_range p t
    obtain ⟨h1, h2, h3⟩ := ih (buddy.dealloc t p) (dealloc_wf p t hw)
    exact ⟨h1, by rw [h2, hr.1], by rw [h3, hr.2]⟩

/-- The gas-limited queue drain preserves well-formedness and the root
range. -/
theorem tidyGasDrain_wf :
    ∀ (q : List (List Dir)) (t : BTree) (gas : Nat), wf t →
      wf (BuddyBookkeeping.tidyGasDrain t q gas).1 ∧
      (BuddyBookkeeping.tidyGasDrain t q gas).1.start = t.start ∧
      (BuddyBookkeeping.tidyGasDrain t q gas).1.stop = t.stop := by
  intro q
  induction q with
  | nil => intro t gas hw; exact ⟨hw, rfl, rfl⟩
  | cons p rest ih =>
    intro t gas hw
    rw [BuddyBookkeeping.tidyGasDrain]
    by_cases h0 : gas = 0
    · rw [if_pos h0]
      exact ⟨hw, rfl, rfl⟩
    · rw [if_neg h0]
      have hr := dealloc_preserves_range p t
      obtain ⟨h1, h2, h3⟩ := ih (buddy.dealloc t p) (gas - 1) (dealloc_wf p t hw)
      exact ⟨h1, by rw [h2, hr.1], by rw [h3, hr.2]⟩

/-- The deadline-limited queue drain preserves well-formedness and the
root range. -/
theorem tidyTimedDrain_wf :
    ∀ (q : List (List Dir)) (t : BTree) (oracle : List Bool), wf t →
      wf (BuddyBookkeeping.tidyTimedDrain t q oracle).1 ∧
      (BuddyBookkeeping.tidyTimedDrain t q oracle).1.start = t.start ∧
      (BuddyBookkeeping.tidyTimedDrain t q oracle).1.stop = t.stop := by
  intro q
  induction q with
  | nil => intro t oracle hw; exact ⟨hw, rfl, rfl⟩
  | cons p rest ih =>
    intro t oracle hw
    rw [BuddyBookkeeping.tidyTimedDrain]
    by_cases h0 : oracle.headD false
    · rw [if_pos h0]
      exact ⟨hw, rfl, rfl⟩
    · rw [if_neg h0]
      have hr := dealloc_preserves_range p t
      obtain ⟨h1, h2, h3⟩ := ih (buddy.dealloc t p) oracle.tail (dealloc_wf p t hw)
      exact ⟨h1, by rw [h2, hr.1], by rw [h3, hr.2]⟩

/-- In a well-formed tree the occupied leaf ranges are nonempty,
contained in the node's range, and sorted left-to-right (so pairwise
disjoint). -/
theorem occupiedRanges_sorted :
    ∀ t : BTree, wf t →
      (∀ r ∈ occupiedRanges t, t.start ≤ r.1 ∧ r.1 < r.2 ∧ r.2 ≤ t.stop) ∧
      List.Pairwise (fun a b : Nat × Nat => a.2 ≤ b.1) (occupiedRanges t) := by
  intro t
  induction t with
  | Available s e =>
    intro hw
    constructor
    · intro r hr
      simp [occupiedRanges] at hr
    · exact List.Pairwise.nil
  | Occupied s e =>
    intro hw
    obtain ⟨k, hk⟩ := hw
    have := Nat.two_pow_pos k
    constructor
    · intro r hr
      rw [occupiedRanges] at hr
      rcases List.mem_singleton.mp hr with rfl
      refine ⟨le_refl _, ?_, le_refl _⟩
      show s < e
      omega
    · exact List.pairwise_singleton _ _
  | Split s e f g ihf ihg =>
    intro hw
    obtain ⟨hpow, hf1, hf2, hg1, hg2, hwf, hwg⟩ := hw
    obtain ⟨hbf, hpf⟩ := ihf hwf
    obtain ⟨hbg, hpg⟩ := ihg hwg
    rw [occupiedRanges]
    have hmid : s + (e - s) / 2 ≤ e := by
      obtain ⟨k, hk⟩ := hpow
      have := Nat.two_pow_pos k
      omega
    constructor
    · intro r hr
      rcases List.mem_append.mp hr with h | h
      · obtain ⟨ha, hb, hc⟩ := hbf r h
        rw [hf1] at ha
        rw [hf2] at hc
        show s ≤ r.1 ∧ r.1 < r.2 ∧ r.2 ≤ e
        omega
      · obtain ⟨ha, hb, hc⟩ := hbg r h
        rw [hg1] at ha
        rw [hg2] at hc
        show s ≤ r.1 ∧ r.1 < r.2 ∧ r.2 ≤ e
        omega
    · refine List.pairwise_append.mpr ⟨hpf, hpg, ?_⟩
      intro a ha b hb
      obtain ⟨_, _, hc⟩ := hbf a ha
      obtain ⟨hd', _, _⟩ := hbg b hb
      rw [hf2] at hc
      rw [hg1] at hd'
      omega

/-- C7: every public operation — construction, `alloc`,
dealloc-via-drain and all tidy variants — preserves the tree
invariants: every node's range length is a power of two, every `Split`
node's children are the two contiguous halves of its range, the root
range (and hence `[0, universeSize)`) is preserved, and the currently
`Occupied` leaf ranges are pairwise disjoint subsets of
`[0, universeSize)`. -/
theorem operations_preserve_invariants :
    (∀ size mn mx, BuddyBookkeeping.newPre size mn mx →
      mwf (BuddyBookkeeping.new size mn mx) ∧
      (BuddyBookkeeping.new size mn mx).tree.stop = size) ∧
    (∀ (m : BuddyBookkeeping) (count : Nat) (r : Option Allocation × BuddyBookkeeping),
      mwf m → m.alloc count = some r → mwf r.2 ∧ r.2.tree.stop = m.tree.stop) ∧
    (∀ m : BuddyBookkeeping, mwf m → mwf m.tidy ∧ m.tidy.tree.stop = m.tree.stop) ∧
    (∀ (m : BuddyBookkeeping) (gas : Nat), mwf m →
      mwf (m.tidy_gas gas) ∧ (m.tidy_gas gas).tree.stop = m.tree.stop) ∧
    (∀ (m : BuddyBookkeeping) (oracle : List Bool), mwf m →
      mwf (m.tidy_timed oracle) ∧ (m.tidy_timed oracle).tree.stop = m.tree.stop) ∧
    (∀ (m : BuddyBookkeeping) (a : Allocation), mwf m →
      mwf (m.dropAllocation a) ∧ (m.dropAllocation a).tree.stop = m.tree.stop) ∧
    (∀ m : BuddyBookkeeping, mwf m →
      List.Pairwise (fun a b : Nat × Nat => a.2 ≤ b.1 ∨ b.2 ≤ a.1) (occupiedRanges m.tree) ∧
      ∀ r ∈ occupiedRanges m.tree, r.1 < r.2 ∧ r.2 ≤ m.tree.stop) := by
  refine ⟨?_, ?_, ?_, ?_, ?_, ?_, ?_⟩
  · intro size mn mx hpre
    refine ⟨⟨?_, rfl⟩, rfl⟩
    show IsPow2 (size - 0)
    rw [Nat.sub_zero]
    exact hpre.1
  · intro m count r hm hr
    unfold BuddyBookkeeping.alloc at hr
    by_cases hc : count = 0
    · rw [if_pos hc] at hr
      cases hr
    · rw [if_neg hc] at hr
      dsimp only at hr
      by_cases hb : best_size m.min_block_size m.max_block_size count < count
      · rw [if_pos hb] at hr
        simp only [Option.some.injEq] at hr
        rw [← hr]
        exact ⟨hm, rfl⟩
      · rw [if_neg hb] at hr
        have hbest : 0 < best_size m.min_block_size m.max_block_size count := by omega
        have hwf := alloc_wf m.tree (best_size m.min_block_size m.max_block_size count)
          hbest hm.1
        have hrange := alloc_preserves_range m.tree
          (best_size m.min_block_size m.max_block_size count)
        cases hres : (buddy.alloc m.tree (best_size m.min_block_size m.max_block_size count)).1
          with
        | none =>
          simp only [hres, Option.some.injEq] at hr
          rw [← hr]
          exact ⟨⟨hwf, by rw [hrange.1]; exact hm.2⟩, hrange.2⟩
        | some p =>
          simp only [hres, Option.some.injEq] at hr
          rw [← hr]
          exact ⟨⟨hwf, by rw [hrange.1]; exact hm.2⟩, hrange.2⟩
  · intro m hm
    obtain ⟨hdw, hds, hde⟩ := drainAll_wf m.queue m.tree hm.1
    have htw := tidy_wf _ hdw
    have htr := tidy_preserves_range (BuddyBookkeeping.drainAll m.tree m.queue)
    refine ⟨⟨htw, ?_⟩, ?_⟩
    · show (buddy.tidy (BuddyBookkeeping.drainAll m.tree m.queue)).2.start = 0
      rw [htr.1, hds]
      exact hm.2
    · show (buddy.tidy (BuddyBookkeeping.drainAll m.tree m.queue)).2.stop = m.tree.stop
      rw [htr.2, hde]
  · intro m gas hm
    unfold BuddyBookkeeping.tidy_gas
    obtain ⟨hdw, hds, hde⟩ := tidyGasDrain_wf m.queue m.tree gas hm.1
    dsimp only
    split
    · refine ⟨⟨hdw, ?_⟩, ?_⟩
      · show (BuddyBookkeeping.tidyGasDrain m.tree m.queue gas).1.start = 0
        rw [hds]
        exact hm.2
      · show (BuddyBookkeeping.tidyGasDrain m.tree m.queue gas).1.stop = m.tree.stop
        rw [hde]
    · have htw := tidy_gas_wf (BuddyBookkeeping.tidyGasDrain m.tree m.queue gas).1
        (BuddyBookkeeping.tidyGasDrain m.tree m.queue gas).2.2.1 hdw
      have htr := tidy_gas_preserves_range (BuddyBookkeeping.tidyGasDrain m.tree m.queue gas).1
        (BuddyBookkeeping.tidyGasDrain m.tree m.queue gas).2.2.1
      refine ⟨⟨htw, ?_⟩, ?_⟩
      · show (buddy.tidy_gas (BuddyBookkeeping.tidyGasDrain m.tree m.queue gas).1
            (BuddyBookkeeping.tidyGasDrain m.tree m.queue gas).2.2.1).2.1.start = 0
        rw [htr.1, hds]
        exact hm.2
      · show (buddy.tidy_gas (BuddyBookkeeping.tidyGasDrain m.tree m.queue gas).1
            (BuddyBookkeeping.tidyGasDrain m.tree m.queue gas).2.2.1).2.1.stop = m.tree.stop
        rw [htr.2, hde]
  · intro m oracle hm
    unfold BuddyBookkeeping.tidy_timed
    obtain ⟨hdw, hds, hde⟩ := tidyTimedDrain_wf m.queue m.tree oracle hm.1
    dsimp only
    split
    · refine ⟨⟨hdw, ?_⟩, ?_⟩
      · show (BuddyBookkeeping.tidyTimedDrain m.tree m.queue oracle).1.start = 0
        rw [hds]
        exact hm.2
      · show (BuddyBookkeeping.tidyTimedDrain m.tree m.queue oracle).1.stop = m.tree.stop
        rw [hde]
    · have htw := tidy_timed_wf (BuddyBookkeeping.tidyTimedDrain m.tree m.queue oracle).1
        (BuddyBookkeeping.tidyTimedDrain m.tree m.queue oracle).2.2.1 hdw
      have htr := tidy_timed_preserves_range
        (BuddyBookkeeping.tidyTimedDrain m.tree m.queue oracle).1
        (BuddyBookkeeping.tidyTimedDrain m.tree m.queue oracle).2.2.1
      refine ⟨⟨htw, ?_⟩, ?_⟩
      · show (buddy.tidy_timed (BuddyBookkeeping.tidyTimedDrain m.tree m.queue oracle).1
            (BuddyBookkeeping.tidyTimedDrain m.tree m.queue oracle).2.2.1).2.1.start = 0
        rw [htr.1, hds]
        exact hm.2
      · show (buddy.tidy_timed (BuddyBookkeeping.tidyTimedDrain m.tree m.queue oracle).1
            (BuddyBookkeeping.tidyTimedDrain m.tree m.queue oracle).2.2.1).2.1.stop = m.tree.stop
        rw [htr.2, hde]
  · intro m a hm
    exact ⟨hm, rfl⟩
  · intro m hm
    obtain ⟨hb, hp⟩ := occupiedRanges_sorted m.tree hm.1
    constructor
    · exact hp.imp (fun h => Or.inl h)
    · intro r hr
      obtain ⟨_, h2, h3⟩ := hb r hr
      exact ⟨h2, h3⟩

/-- C7 witness: the invariants hold for the freshly constructed
manager `new(8, 2, 4)` (constructor preconditions discharged
concretely). -/
theorem operations_preserve_invariants_witness :
    mwf (BuddyBookkeeping.new 8 2 4) :=
  (operations_preserve_invariants.1 8 2 4 ⟨⟨3, rfl⟩, by norm_num, by norm_num⟩).1
